import Mathlib

/-!
Verification of the lock-free skip-list map (package skiplist).

The development is a sequential shallow embedding of the engine's core:

* nodes carry an immutable key, an atomically-swappable value slot whose
  absence (`none`) denotes logical deletion, a tower height (the length of
  the Go node's forward-pointer array), and a marker flag
  (node layout in metrics.go / skiplist/internal.go);
* the map state is the level-0 chain between the head and tail sentinels
  together with the live-length counter and the insert-CAS counters
  (struct SkipListMap in skiplist_map.go).  The level-i chain consists of
  the nodes of height > i in level-0 order: sequentially an insert links
  its node at every level 0..h-1 between the same neighbours and a delete
  unlinks it everywhere, so the per-level pointer arrays are determined by
  the heights.  Pointer double indirection (**node) is collapsed: CAS on
  pointer identity is modelled by the deterministic sequential update.
* every CAS succeeds in a sequential execution, so the retry loops of
  find / Put / Delete collapse to their straight-line bodies; the branches
  taken only when a CAS loses a race are kept where they are reachable
  and noted where they are sequentially dead.

Go's `var zero V` is rendered as `(default : V)` from an `Inhabited`
instance, and the user-supplied comparator `less` is passed explicitly.
-/

set_option maxHeartbeats 1000000
set_option linter.unusedSectionVars false

namespace Skiplist

/-- MaxLevel = 32, the maximum tower level (skiplist/internal.go). -/
def MaxLevel : Nat := 32

/-- Trailing-zero count of a 64-bit word, examining the low bits one at a
time; the zero word has 64 trailing zeros (math/bits.TrailingZeros64 as
used by the level generators). -/
def tzAux : Nat → Nat → Nat
  | 0, _ => 0
  | fuel + 1, r => if r % 2 = 1 then 0 else tzAux fuel (r / 2) + 1

/-- 64-bit trailing-zero count of the random draw. -/
def trailingZeros64 (r : Nat) : Nat := tzAux 64 r

/-- randomLevel: one plus the trailing-zero count of a uniform 64-bit
draw, clamped to MaxLevel (RNG.RandomLevel in rand.go and randomLevel in
skiplist/internal.go). -/
def randomLevel (r : Nat) : Nat :=
  let level := trailingZeros64 r + 1
  if level > MaxLevel then MaxLevel else level

/-- A skip-list entry: key, value slot (`none` = logically deleted /
tombstone), tower height (the length of the Go node's `next` array) and
the marker flag (struct node in skiplist/internal.go). -/
structure Node (K V : Type) where
  key : K
  val : Option V
  height : Nat
  marker : Bool
  deriving DecidableEq

/-- The map state: the level-0 chain strictly between the head and tail
sentinels, plus the counters of struct SkipListMap (skiplist_map.go). -/
structure SkipListMap (K V : Type) where
  entries : List (Node K V)
  length : Int
  insertCASRetries : Int
  insertCASSuccesses : Int
  deriving DecidableEq

variable {K V : Type} [DecidableEq K] [Inhabited K] [Inhabited V]

/-- New: an empty map with zeroed counters (New in skiplist_map.go). -/
def New : SkipListMap K V := ⟨[], 0, 0, 0⟩

/-- The level-`i` chain: sequentially a node of height `h` is linked at
exactly the levels `0..h-1`, in level-0 order. -/
def chainAt (i : Nat) (s : SkipListMap K V) : List (Node K V) :=
  s.entries.filter (fun n => decide (i < n.height))

/-- A node the traversal helps past: a marker or a tombstoned node
(the `next.marker || next.val.Load() == nil` test in find). -/
def isDead (n : Node K V) : Bool := n.marker || n.val.isNone

/-- The level-0 descent loop of find (skiplist_map.go): helping CASes
unlink every marker or tombstone encountered, live nodes whose key is
strictly less than the target are passed, and the walk stops at the first
live node whose key is not less than the target (or at the tail).
Returns the passed nodes (the predecessor information) and the remaining
suffix headed by `succs[0]`; the helped-past dead nodes are unlinked. -/
def findSplit (less : K → K → Bool) (key : K) :
    List (Node K V) → List (Node K V) × List (Node K V)
  | [] => ([], [])
  | n :: rest =>
    if isDead n then findSplit less key rest
    else if less n.key key then
      ((findSplit less key rest).1.cons n, (findSplit less key rest).2)
    else ([], n :: rest)

/-- The `found` computation of find: the bottom-level candidate is not the
tail, its key equals the target under native equality, and its value slot
is non-nil. -/
def foundOf (key : K) : List (Node K V) → Bool
  | [] => false
  | c :: _ => decide (c.key = key) && c.val.isSome

/-- Result of find: the state after helping, the passed prefix (preds),
the suffix headed by `succs[0]`, and the found flag. -/
structure FindResult (K V : Type) where
  state : SkipListMap K V
  passed : List (Node K V)
  suffix : List (Node K V)
  found : Bool

/-- find (skiplist_map.go): descend, helping past dead nodes, and report
predecessors/successors and whether the key is present and live. -/
def find (less : K → K → Bool) (key : K) (s : SkipListMap K V) :
    FindResult K V :=
  { state := { s with entries :=
      (findSplit less key s.entries).1 ++ (findSplit less key s.entries).2 }
    passed := (findSplit less key s.entries).1
    suffix := (findSplit less key s.entries).2
    found := foundOf key (findSplit less key s.entries).2 }

/-- Get (skiplist_map.go): find, then load the candidate's value slot;
a nil slot (logical deletion between find and the load) reports absence. -/
def Get (less : K → K → Bool) (key : K) (s : SkipListMap K V) :
    (V × Bool) × SkipListMap K V :=
  let r := find less key s
  if r.found then
    match r.suffix with
    | c :: _ =>
      match c.val with
      | some v => ((v, true), r.state)
      | none => ((default, false), r.state)
    | [] => ((default, false), r.state)
  else ((default, false), r.state)

/-- Contains (skiplist_map.go): the found flag of find. -/
def Contains (less : K → K → Bool) (key : K) (s : SkipListMap K V) :
    Bool × SkipListMap K V :=
  ((find less key s).found, (find less key s).state)

/-- Put with an explicit tower height (Put in skiplist_map.go and
mutatorImpl.put in operations.go).  If the key is found live, the value
slot is replaced by CAS and the previous value returned.  Otherwise a new
node of the sampled height is linked at level 0 between the observed
predecessor and successor — the linearizing CAS, which sequentially
succeeds, incrementing the success and length counters — and finishLevels
links the higher levels between the same validated neighbours.  The
pending-node re-acquisition path runs only when a CAS loses a race and is
sequentially dead. -/
def PutH (less : K → K → Bool) (key : K) (value : V) (height : Nat)
    (s : SkipListMap K V) : (V × Bool) × SkipListMap K V :=
  let r := find less key s
  if r.found then
    match r.suffix with
    | c :: rest =>
      ((c.val.getD default, true),
        { r.state with entries := r.passed ++ ({ c with val := some value } :: rest) })
    | [] => ((default, false), r.state)
  else
    ((default, false),
      { r.state with
          entries := r.passed ++ (⟨key, some value, height, false⟩ :: r.suffix)
          length := r.state.length + 1
          insertCASSuccesses := r.state.insertCASSuccesses + 1 })

/-- Put: sample the height from the 64-bit draw, then insert. -/
def Put (less : K → K → Bool) (key : K) (value : V) (draw : Nat)
    (s : SkipListMap K V) : (V × Bool) × SkipListMap K V :=
  PutH less key value (randomLevel draw) s

/-- Delete (mutatorImpl.delete in operations.go; Delete in
skiplist_map.go):  find the key; if absent return not-ok.  Otherwise
logically delete (CAS the value slot to nil and decrement the length),
splice a marker after the target (ensureMarker), physically unlink the
target at every level (physicalDelete; the marker goes with it), and
re-run the verification find — sequentially the key cannot have been
revived, so the retry loop collapses and the delete reports the old
value.  The branch where logicalDelete loses the race is sequentially
dead because found implies a live value slot. -/
def Delete (less : K → K → Bool) (key : K) (s : SkipListMap K V) :
    (V × Bool) × SkipListMap K V :=
  let r := find less key s
  if r.found then
    match r.suffix with
    | c :: rest =>
      match c.val with
      | some v =>
        ((v, true),
          (find less key
            { r.state with entries := r.passed ++ rest
                           length := r.state.length - 1 }).state)
      | none => ((default, false), r.state)
    | [] => ((default, false), r.state)
  else ((default, false), r.state)

/-- LenInt64: the live-length counter. -/
def Len (s : SkipListMap K V) : Int := s.length

/-- InsertCASStats: (retries, successes). -/
def InsertCASStats (s : SkipListMap K V) : Int × Int :=
  (s.insertCASRetries, s.insertCASSuccesses)

/-- Iterator (hooks.go): the underlying map (`none` models a nil `m`
field), the level-0 suffix strictly after the current node (the chain
the current node's forward pointer heads; `[]` with `valid = false`
models a nil `current`), the published key/value snapshots and the valid
flag. -/
structure Iterator (K V : Type) where
  m : Option (SkipListMap K V)
  cur : List (Node K V)
  key : K
  value : V
  valid : Bool
  deriving DecidableEq

/-- Iterator(): a pre-start iterator (hooks.go). -/
def NewIterator (s : SkipListMap K V) : Iterator K V :=
  ⟨some s, [], default, default, false⟩

/-- invalidate (hooks.go): clear position, snapshots and validity. -/
def invalidate (it : Iterator K V) : Iterator K V :=
  { it with cur := [], key := default, value := default, valid := false }

/-- advanceFrom (skiplist_map.go), collapsed sequentially: walk the
level-0 chain, helping past markers and (via a helping find) tombstoned
nodes, and return the first live node together with the chain after it;
`none` means the tail was reached. -/
def nextLive : List (Node K V) → Option (Node K V × List (Node K V))
  | [] => none
  | n :: rest =>
    if n.marker then nextLive rest
    else if n.val.isNone then nextLive rest
    else some (n, rest)

/-- Iterator.Next (hooks.go).  A nil iterator or a nil map reports false.
Otherwise advance from the current node — from the head when the iterator
is not valid — and position at the next live node; the re-check of the
value slot after advanceFrom only fails under a concurrent delete and is
sequentially dead. -/
def IterNext : Option (Iterator K V) → Bool × Option (Iterator K V)
  | none => (false, none)
  | some it =>
    match it.m with
    | none => (false, some it)
    | some s =>
      match nextLive (if it.valid then it.cur else s.entries) with
      | none => (false, some (invalidate it))
      | some (n, rest) =>
        (true, some { it with cur := rest, key := n.key,
                              value := n.val.getD default, valid := true })

/-- Iterator.SeekGE (hooks.go).  A nil iterator or a nil map reports
false.  Otherwise invalidate, find the key, and walk from `succs[0]`
skipping dead nodes to the first live node with key ≥ the target. -/
def IterSeekGE (less : K → K → Bool) (key : K) :
    Option (Iterator K V) → Bool × Option (Iterator K V)
  | none => (false, none)
  | some it =>
    match it.m with
    | none => (false, some it)
    | some s =>
      match nextLive (find less key s).suffix with
      | none => (false, some (invalidate it))
      | some (n, rest) =>
        (true, some { invalidate it with cur := rest, key := n.key,
                                         value := n.val.getD default, valid := true })

/-- Iterator.Valid (hooks.go): false for a nil iterator. -/
def IterValid : Option (Iterator K V) → Bool
  | none => false
  | some it => it.valid

/-- Iterator.Key (hooks.go): the zero key for a nil or invalid iterator. -/
def IterKey : Option (Iterator K V) → K
  | none => default
  | some it => if it.valid then it.key else default

/-- Iterator.Value (hooks.go): the zero value for a nil or invalid
iterator. -/
def IterValue : Option (Iterator K V) → V
  | none => default
  | some it => if it.valid then it.value else default

/-- Drive an iterator with repeated Next, collecting the published
(key, value) snapshots; the fuel bounds the number of calls. -/
def collect : Nat → Option (Iterator K V) → List (K × V)
  | 0, _ => []
  | fuel + 1, it =>
    match IterNext it with
    | (true, it') => (IterKey it', IterValue it') :: collect fuel it'
    | (false, _) => []

/-- SeekGE on a fresh iterator followed by repeated Next: the full key /
value sequence such an iterator yields. -/
def seekCollect (less : K → K → Bool) (key : K) (fuel : Nat)
    (s : SkipListMap K V) : List (K × V) :=
  match IterSeekGE less key (some (NewIterator s)) with
  | (true, it) => (IterKey it, IterValue it) :: collect fuel it
  | (false, _) => []

/-- The states reachable from a fresh map by completed operations. -/
inductive Reach (less : K → K → Bool) : SkipListMap K V → Prop where
  | new : Reach less New
  | put (k : K) (v : V) (draw : Nat) (s : SkipListMap K V) :
      Reach less s → Reach less (Put less k v draw s).2
  | del (k : K) (s : SkipListMap K V) :
      Reach less s → Reach less (Delete less k s).2
  | get (k : K) (s : SkipListMap K V) :
      Reach less s → Reach less (Get less k s).2
  | contains (k : K) (s : SkipListMap K V) :
      Reach less s → Reach less (Contains less k s).2

/-- The comparator contract: a strict total order (irreflexive,
transitive, total) agreeing with native equality. -/
def StrictOrder (less : K → K → Bool) : Prop :=
  (∀ a, less a a = false) ∧
  (∀ a b c, less a b = true → less b c = true → less a c = true) ∧
  (∀ a b : K, a ≠ b → less a b = true ∨ less b a = true)

/-- Every node of the chain is live: no markers, no tombstones. -/
def allLive (l : List (Node K V)) : Prop :=
  ∀ n ∈ l, n.marker = false ∧ n.val.isSome = true

/-- Keys strictly increase along the chain. -/
def sortedBy (less : K → K → Bool) (l : List (Node K V)) : Prop :=
  l.Pairwise (fun a b => less a.key b.key = true)

/-- Every tower height is in [1, MaxLevel]. -/
def heightsOK (l : List (Node K V)) : Prop :=
  ∀ n ∈ l, 1 ≤ n.height ∧ n.height ≤ MaxLevel

/-- The structural invariant of reachable states: sortedness, liveness,
height bounds, an exact length counter, and at least as many successful
insert CASes as live elements. -/
def Inv (less : K → K → Bool) (s : SkipListMap K V) : Prop :=
  sortedBy less s.entries ∧ allLive s.entries ∧ heightsOK s.entries ∧
    s.length = s.entries.length ∧ s.length ≤ s.insertCASSuccesses

/-- The comparator of the concrete Int scenarios. -/
def intLess : Int → Int → Bool := fun a b => decide (a < b)

/-- The (value, present) pair Get computes, as a function of the chain. -/
def lookupRes (less : K → K → Bool) (k : K) (l : List (Node K V)) : V × Bool :=
  match (findSplit less k l).2 with
  | c :: _ =>
    if c.key = k ∧ c.val.isSome then (c.val.getD default, true)
    else (default, false)
  | [] => (default, false)

/-- A one-element map holding the binding 42 ↦ 1. -/
def mapOne : SkipListMap Int Int := ⟨[⟨42, some 1, 1, false⟩], 1, 0, 1⟩

/-- A one-element map holding the binding 1 ↦ 10. -/
def mapTen : SkipListMap Int Int := ⟨[⟨1, some 10, 1, false⟩], 1, 0, 1⟩

/-- The state produced by put(42, 1) on a fresh map (draw 1, height 1). -/
def mapC3 : SkipListMap Int Int := (Put intLess 42 1 1 New).2

/-- The (key, value) pairs of the live, non-marker nodes of a chain, in
chain order: the sequence a full iteration publishes. -/
def scanLive : List (Node K V) → List (K × V)
  | [] => []
  | n :: rest =>
    if n.marker then scanLive rest
    else if n.val.isNone then scanLive rest
    else (n.key, n.val.getD default) :: scanLive rest

/-- The map of the four-key iterator scenario: keys {5, 1, 3} inserted
with values {50, 10, 30} into a fresh map. -/
def mapC4 : SkipListMap Int Int :=
  (Put intLess 3 30 1 (Put intLess 1 10 1 (Put intLess 5 50 1 New).2).2).2

/-! ### Basic lemmas about the traversal -/

theorem isDead_false {n : Node K V} (hm : n.marker = false)
    (hv : n.val.isSome = true) : isDead n = false := by
  simp [isDead, hm, Option.isNone_iff_eq_none]
  cases h : n.val with
  | none => rw [h] at hv; simp at hv
  | some v => simp

/-- On an all-live chain the level-0 walk is the takeWhile/dropWhile
split at the first key that is not less than the target. -/
theorem findSplit_allLive (k : K) :
    ∀ l : List (Node K V), allLive l →
      findSplit less k l =
        (l.takeWhile (fun n => less n.key k),
         l.dropWhile (fun n => less n.key k)) := by
  intro l
  induction l with
  | nil => intro _; rfl
  | cons n rest ih =>
    intro hl
    have hn := hl n (by simp)
    have hrest : allLive rest := fun m hm => hl m (by simp [hm])
    have hdead : isDead n = false := isDead_false hn.1 hn.2
    cases hlt : less n.key k with
    | true =>
      simp [findSplit, hdead, hlt, ih hrest, List.takeWhile_cons,
        List.dropWhile_cons]
    | false =>
      simp [findSplit, hdead, hlt, List.takeWhile_cons, List.dropWhile_cons]

/-- The suffix returned by the walk is a sublist of the chain. -/
theorem findSplit_suffix_sublist (k : K) :
    ∀ l : List (Node K V), (findSplit less k l).2.Sublist l := by
  intro l
  induction l with
  | nil => simp [findSplit]
  | cons n rest ih =>
    by_cases hdead : isDead n = true
    · simpa [findSplit, hdead] using ih.trans (List.sublist_cons_self n rest)
    · rw [Bool.not_eq_true] at hdead
      cases hlt : less n.key k with
      | true => simpa [findSplit, hdead, hlt] using
          ih.trans (List.sublist_cons_self n rest)
      | false => simp [findSplit, hdead, hlt]

/-- find never touches the counters. -/
theorem find_state_length (k : K) (s : SkipListMap K V) :
    (find less k s).state.length = s.length := rfl

theorem find_state_retries (k : K) (s : SkipListMap K V) :
    (find less k s).state.insertCASRetries = s.insertCASRetries := rfl

theorem find_state_successes (k : K) (s : SkipListMap K V) :
    (find less k s).state.insertCASSuccesses = s.insertCASSuccesses := rfl

/-- On an all-live chain find's helping performs no unlink: the state is
returned unchanged. -/
theorem find_state_of_allLive {k : K} {s : SkipListMap K V}
    (hl : allLive s.entries) : (find less k s).state = s := by
  cases s with
  | mk e len r su =>
    simp only [find, findSplit_allLive k e hl, List.takeWhile_append_dropWhile]

/-- allLive restricts to sublists. -/
theorem allLive_sublist {l l' : List (Node K V)} (hs : l'.Sublist l)
    (hl : allLive l) : allLive l' := fun n hn => hl n (hs.subset hn)

/-- sortedBy restricts to sublists. -/
theorem sortedBy_sublist {l l' : List (Node K V)} (hs : l'.Sublist l)
    (hl : sortedBy less l) : sortedBy less l' := hl.sublist hs

/-! ### Effect of the operations on all-live states -/

theorem findSplit_concat_of_allLive (k : K) {l : List (Node K V)}
    (hl : allLive l) :
    (findSplit less k l).1 ++ (findSplit less k l).2 = l := by
  rw [findSplit_allLive k l hl]
  exact List.takeWhile_append_dropWhile _ l

theorem get_found_eq {s : SkipListMap K V} {k : K} {c : Node K V}
    {rest : List (Node K V)} {v : V} (hl : allLive s.entries)
    (hdw : s.entries.dropWhile (fun n => less n.key k) = c :: rest)
    (hk : c.key = k) (hv : c.val = some v) :
    Get less k s = ((v, true), s) := by
  cases s with
  | mk e len r su =>
    simp only [Get, find, findSplit_allLive k e hl] at hdw ⊢
    have he : e.takeWhile (fun n => less n.key k) ++ c :: rest = e := by
      conv_rhs => rw [← List.takeWhile_append_dropWhile
        (p := fun n => less n.key k) (l := e)]
      rw [hdw]
    simp [hdw, foundOf, hk, hv, he]

theorem get_not_found_eq {s : SkipListMap K V} {k : K}
    (hl : allLive s.entries)
    (hnf : foundOf k (s.entries.dropWhile (fun n => less n.key k)) = false) :
    Get less k s = ((default, false), s) := by
  cases s with
  | mk e len r su =>
    simp only [Get, find, findSplit_allLive k e hl] at hnf ⊢
    simp [hnf, List.takeWhile_append_dropWhile]

theorem contains_eq {s : SkipListMap K V} {k : K} (hl : allLive s.entries) :
    Contains less k s =
      (foundOf k (s.entries.dropWhile (fun n => less n.key k)), s) := by
  cases s with
  | mk e len r su =>
    simp only [Contains, find, findSplit_allLive k e hl]
    simp [List.takeWhile_append_dropWhile]

theorem put_replace_eq {s : SkipListMap K V} {k : K} {c : Node K V}
    {rest : List (Node K V)} {v1 : V} (v2 : V) (h : Nat)
    (hl : allLive s.entries)
    (hdw : s.entries.dropWhile (fun n => less n.key k) = c :: rest)
    (hk : c.key = k) (hv : c.val = some v1) :
    PutH less k v2 h s =
      ((v1, true),
        { s with entries := s.entries.takeWhile (fun n => less n.key k) ++
            ({ c with val := some v2 } :: rest) }) := by
  cases s with
  | mk e len r su =>
    simp only [PutH, find, findSplit_allLive k e hl] at hdw ⊢
    simp [hdw, foundOf, hk, hv]

theorem put_fresh_eq {s : SkipListMap K V} {k : K} (v : V) (h : Nat)
    (hl : allLive s.entries)
    (hnf : foundOf k (s.entries.dropWhile (fun n => less n.key k)) = false) :
    PutH less k v h s =
      ((default, false),
        { s with
            entries := s.entries.takeWhile (fun n => less n.key k) ++
              (⟨k, some v, h, false⟩ :: s.entries.dropWhile (fun n => less n.key k))
            length := s.length + 1
            insertCASSuccesses := s.insertCASSuccesses + 1 }) := by
  cases s with
  | mk e len r su =>
    simp only [PutH, find, findSplit_allLive k e hl] at hnf ⊢
    simp [hnf]

theorem delete_found_eq {s : SkipListMap K V} {k : K} {c : Node K V}
    {rest : List (Node K V)} {v : V} (hl : allLive s.entries)
    (hdw : s.entries.dropWhile (fun n => less n.key k) = c :: rest)
    (hk : c.key = k) (hv : c.val = some v) :
    Delete less k s =
      ((v, true),
        { s with entries := s.entries.takeWhile (fun n => less n.key k) ++ rest
                 length := s.length - 1 }) := by
  have hsub : (c :: rest).Sublist s.entries := by
    rw [← hdw]; exact List.dropWhile_sublist _
  have hl1 : allLive (s.entries.takeWhile (fun n => less n.key k) ++ rest) := by
    intro n hn
    rcases List.mem_append.1 hn with hn | hn
    · exact hl n ((List.takeWhile_sublist _).subset hn)
    · exact hl n (hsub.subset (List.mem_cons_of_mem c hn))
  cases s with
  | mk e len r su =>
    have hl1' : allLive (e.takeWhile (fun n => less n.key k) ++ rest) := hl1
    simp only [Delete, find, findSplit_allLive k e hl] at hdw ⊢
    simp [hdw, foundOf, hk, hv, findSplit_concat_of_allLive k hl1']

theorem delete_not_found_eq {s : SkipListMap K V} {k : K}
    (hnf : (find less k s).found = false) :
    Delete less k s = ((default, false), (find less k s).state) := by
  simp [Delete, hnf]

/-! ### The level generator (claim C8) -/

theorem trailingZeros64_zero : trailingZeros64 0 = 64 := by decide

theorem randomLevel_bounds (r : Nat) :
    1 ≤ randomLevel r ∧ randomLevel r ≤ MaxLevel := by
  simp only [randomLevel, MaxLevel]
  split <;> omega

/-! ### More list helpers -/

theorem dropWhile_all_append (p : Node K V → Bool) :
    ∀ (l1 l2 : List (Node K V)), (∀ x ∈ l1, p x = true) →
      List.dropWhile p (l1 ++ l2) = List.dropWhile p l2 := by
  intro l1
  induction l1 with
  | nil => intro l2 _; rfl
  | cons t ts ih =>
    intro l2 h
    have ht := h t (by simp)
    simp [List.dropWhile_cons, ht, ih l2 (fun x hx => h x (by simp [hx]))]

theorem takeWhile_all_append (p : Node K V → Bool) :
    ∀ (l1 l2 : List (Node K V)), (∀ x ∈ l1, p x = true) →
      List.takeWhile p (l1 ++ l2) = l1 ++ List.takeWhile p l2 := by
  intro l1
  induction l1 with
  | nil => intro l2 _; rfl
  | cons t ts ih =>
    intro l2 h
    have ht := h t (by simp)
    simp [List.takeWhile_cons, ht, ih l2 (fun x hx => h x (by simp [hx]))]

theorem get_fst_eq (k : K) (e : List (Node K V)) (a b d : Int) :
    (Get less k ⟨e, a, b, d⟩).1 = lookupRes less k e := by
  rcases hsuf : (findSplit less k e).2 with _ | ⟨c0, r0⟩
  · simp [Get, find, lookupRes, hsuf, foundOf]
  · rcases hval : c0.val with _ | v0
    · simp [Get, find, lookupRes, hsuf, foundOf, hval]
    · by_cases hk : c0.key = k <;>
        simp [Get, find, lookupRes, hsuf, foundOf, hval, hk]

theorem isDead_congr {c c' : Node K V} (hmk : c'.marker = c.marker)
    (hsm : c'.val.isSome = c.val.isSome) : isDead c' = isDead c := by
  simp only [isDead, hmk]
  cases hv : c.val <;> cases hv' : c'.val <;> simp_all

/-- Changing only the value inside a node's live value slot does not
change the (value, present) answer of Get for any other key. -/
theorem lookupRes_frame (k : K) {c c' : Node K V}
    (hkey : c'.key = c.key) (hmk : c'.marker = c.marker)
    (hsm : c'.val.isSome = c.val.isSome) (hne : c.key ≠ k) :
    ∀ (tw rest : List (Node K V)),
      lookupRes less k (tw ++ c' :: rest) = lookupRes less k (tw ++ c :: rest) := by
  have hd := isDead_congr (V := V) hmk hsm
  intro tw rest
  induction tw with
  | nil =>
    cases hdc : isDead c
    · cases hp : less c.key k
      · have hne' : c'.key ≠ k := by rw [hkey]; exact hne
        simp [lookupRes, findSplit, hd, hdc, hp, hkey, hne, hne']
      · simp [lookupRes, findSplit, hd, hdc, hp, hkey]
    · simp [lookupRes, findSplit, hd, hdc]
  | cons t ts ih =>
    cases hdt : isDead t
    · cases hpt : less t.key k
      · simp [lookupRes, findSplit, hdt, hpt]
      · simp only [List.cons_append, lookupRes, findSplit, hdt, hpt]
        simpa [lookupRes] using ih
    · simp only [List.cons_append, lookupRes, findSplit, hdt]
      simpa [lookupRes] using ih

/-! ### Concrete fixtures for the witnesses -/

/-- intLess is a strict total order agreeing with Int equality. -/
theorem strictOrder_intLess : StrictOrder intLess := by
  refine ⟨?_, ?_, ?_⟩
  · intro a; simp [intLess]
  · intro a b c h1 h2; simp [intLess] at h1 h2 ⊢; omega
  · intro a b h; simp [intLess]; omega

theorem irrefl_intLess : ∀ a : Int, intLess a a = false := fun a => by
  simp [intLess]

/-! ### Claim C8 -/

/-- C8: for every 64-bit random draw — including zero, whose trailing-zero
count is 64 — randomLevel returns a level in the closed range [1, 32]
(MaxLevel), the zero draw being clamped to exactly 32; hence every tower
height Put samples lies in [1, 32]. -/
theorem claim_C8_randomLevel_range :
    ∀ r : Nat, (1 ≤ randomLevel r ∧ randomLevel r ≤ 32) ∧ randomLevel 0 = 32 := by
  intro r
  refine ⟨?_, by decide⟩
  simpa [MaxLevel] using randomLevel_bounds r

/-! ### Claim C1 -/

/-- C1: on a sorted all-live state, whenever delete(k) reports
(v, ok = true) — the delete path of mutatorImpl.delete, which after the
physical unlink re-runs the verification find and restarts if the key is
found — a find(k) performed on the resulting state reports the key
absent. -/
theorem claim_C1_delete_verifies_absence (hso : StrictOrder less)
    (s : SkipListMap K V) (hsort : sortedBy less s.entries)
    (hl : allLive s.entries) (k : K)
    (hdel : (Delete less k s).1.2 = true) :
    (find less k (Delete less k s).2).found = false := by
  rcases hdw : s.entries.dropWhile (fun n => less n.key k) with _ | ⟨c, rest⟩
  · have hf : (find less k s).found = false := by
      simp [find, findSplit_allLive k s.entries hl, hdw, foundOf]
    rw [delete_not_found_eq hf] at hdel
    simp at hdel
  · have hsub : (c :: rest).Sublist s.entries := by
      rw [← hdw]; exact List.dropWhile_sublist _
    by_cases hck : c.key = k
    · obtain ⟨hcm, hcs⟩ := hl c (hsub.subset (by simp))
      rcases hval : c.val with _ | v
      · rw [hval] at hcs; simp at hcs
      · rw [delete_found_eq hl hdw hck hval] at hdel ⊢
        have hl1 : allLive
            (s.entries.takeWhile (fun n => less n.key k) ++ rest) := by
          intro n hn
          rcases List.mem_append.1 hn with hn | hn
          · exact hl n ((List.takeWhile_sublist _).subset hn)
          · exact hl n (hsub.subset (List.mem_cons_of_mem c hn))
        have htw : ∀ x ∈ s.entries.takeWhile (fun n => less n.key k),
            less x.key k = true := by
          intro x hx
          simpa using List.mem_takeWhile_imp hx
        simp only [find, findSplit_allLive k _ hl1]
        rw [dropWhile_all_append _ _ _ htw]
        rcases hrest : rest with _ | ⟨d, ds⟩
        · simp [foundOf]
        · have hpair : sortedBy less (c :: rest) := sortedBy_sublist hsub hsort
          have hcd : less c.key d.key = true := by
            rw [hrest] at hpair
            exact (List.pairwise_cons.1 hpair).1 d (by simp)
          have hkd : less k d.key = true := by rw [← hck]; exact hcd
          have hdk : less d.key k = false := by
            cases hd2 : less d.key k
            · rfl
            · have := hso.2.1 k d.key k hkd hd2
              rw [hso.1 k] at this
              exact Bool.noConfusion this
          have hdkne : (d.key = k) = False := by
            simp only [eq_iff_iff, iff_false]
            intro hEq
            rw [hEq] at hkd
            rw [hso.1 k] at hkd
            exact Bool.noConfusion hkd
          simp [List.dropWhile_cons, hdk, foundOf, hdkne]
    · have hf : (find less k s).found = false := by
        simp [find, findSplit_allLive k s.entries hl, hdw, foundOf, hck]
      rw [delete_not_found_eq hf] at hdel
      simp at hdel

/-- Witness for C1: deleting key 42 from a live one-element map returns
ok = true and the subsequent find reports the key absent. -/
theorem claim_C1_witness :
    (Delete intLess 42 mapOne).1.2 = true ∧
      (find intLess 42 (Delete intLess 42 mapOne).2).found = false :=
  ⟨by decide,
    claim_C1_delete_verifies_absence strictOrder_intLess mapOne
      (by simp [sortedBy, mapOne]) (by simp [allLive, mapOne]) 42 (by decide)⟩

/-! ### Claim C2 -/

/-- C2: on an all-live state, if k is present with live value v1 then
put(k, v2) returns (v1, true) and a subsequent get(k) returns (v2, true);
if k is absent then put(k, v) returns the zero value of V with
replaced = false and a subsequent get(k) returns (v, true). -/
theorem claim_C2_put_get_roundtrip (hirr : ∀ a : K, less a a = false)
    (s : SkipListMap K V) (hl : allLive s.entries) (k : K) (v1 v2 v : V)
    (draw : Nat) :
    ((Get less k s).1 = (v1, true) →
      (Put less k v2 draw s).1 = (v1, true) ∧
      (Get less k (Put less k v2 draw s).2).1 = (v2, true)) ∧
    ((find less k s).found = false →
      (Put less k v draw s).1 = ((default : V), false) ∧
      (Get less k (Put less k v draw s).2).1 = (v, true)) := by
  have htw : ∀ x ∈ s.entries.takeWhile (fun n => less n.key k),
      (fun n : Node K V => less n.key k) x = true := by
    intro x hx
    simpa using List.mem_takeWhile_imp hx
  constructor
  · intro hg
    rcases hdw : s.entries.dropWhile (fun n => less n.key k) with _ | ⟨c, rest⟩
    · rw [get_not_found_eq hl (by simp [hdw, foundOf])] at hg
      simp at hg
    · have hsub : (c :: rest).Sublist s.entries := by
        rw [← hdw]; exact List.dropWhile_sublist _
      by_cases hck : c.key = k
      · obtain ⟨hcm, hcs⟩ := hl c (hsub.subset (by simp))
        rcases hval : c.val with _ | vc
        · rw [hval] at hcs; simp at hcs
        · rw [get_found_eq hl hdw hck hval] at hg
          simp only [Prod.mk.injEq] at hg
          have hv1 : vc = v1 := hg.1
          have hPut := put_replace_eq v2 (randomLevel draw)
            hl hdw hck hval
          have hl2 : allLive (s.entries.takeWhile (fun n => less n.key k) ++
              ({ c with val := some v2 } :: rest)) := by
            intro n hn
            rcases List.mem_append.1 hn with hn | hn
            · exact hl n ((List.takeWhile_sublist _).subset hn)
            · rcases List.mem_cons.1 hn with hn | hn
              · subst hn; exact ⟨hcm, by simp⟩
              · exact hl n (hsub.subset (List.mem_cons_of_mem c hn))
          have hdw2 : (s.entries.takeWhile (fun n => less n.key k) ++
              ({ c with val := some v2 } :: rest)).dropWhile
                (fun n => less n.key k) = { c with val := some v2 } :: rest := by
            rw [dropWhile_all_append _ _ _ htw]
            have hpc : less c.key k = false := by rw [hck]; exact hirr k
            simp [List.dropWhile_cons, hpc]
          constructor
          · rw [Put, hPut]; simp [hv1]
          · rw [Put, hPut]
            rw [get_found_eq
              (s := { s with entries :=
                s.entries.takeWhile (fun n => less n.key k) ++
                  ({ c with val := some v2 } :: rest) })
              (c := { c with val := some v2 }) (v := v2)
              hl2 hdw2 hck rfl]
      · rw [get_not_found_eq hl (by simp [hdw, foundOf, hck])] at hg
        simp at hg
  · intro hnf
    have hfo : foundOf k (s.entries.dropWhile (fun n => less n.key k)) = false := by
      simpa [find, findSplit_allLive k s.entries hl] using hnf
    have hPut := put_fresh_eq v (randomLevel draw) hl hfo
    have hl2 : allLive (s.entries.takeWhile (fun n => less n.key k) ++
        ((⟨k, some v, randomLevel draw, false⟩ : Node K V) ::
          s.entries.dropWhile (fun n => less n.key k))) := by
      intro n hn
      rcases List.mem_append.1 hn with hn | hn
      · exact hl n ((List.takeWhile_sublist _).subset hn)
      · rcases List.mem_cons.1 hn with hn | hn
        · subst hn; exact ⟨rfl, rfl⟩
        · exact hl n ((List.dropWhile_sublist _).subset hn)
    have hdw2 : (s.entries.takeWhile (fun n => less n.key k) ++
        ((⟨k, some v, randomLevel draw, false⟩ : Node K V) ::
          s.entries.dropWhile (fun n => less n.key k))).dropWhile
            (fun n => less n.key k) =
        (⟨k, some v, randomLevel draw, false⟩ : Node K V) ::
          s.entries.dropWhile (fun n => less n.key k) := by
      rw [dropWhile_all_append _ _ _ htw]
      simp [List.dropWhile_cons, hirr k]
    constructor
    · rw [Put, hPut]
    · rw [Put, hPut]
      rw [get_found_eq
        (s := { s with
          entries := s.entries.takeWhile (fun n => less n.key k) ++
              ((⟨k, some v, randomLevel draw, false⟩ : Node K V) ::
                s.entries.dropWhile (fun n => less n.key k)),
          length := s.length + 1,
          insertCASSuccesses := s.insertCASSuccesses + 1 })
        (c := ⟨k, some v, randomLevel draw, false⟩) (v := v)
        hl2 hdw2 rfl rfl]

/-- Witness for C2: on the map {1 ↦ 10}, put(1, 20) returns (10, true)
and get(1) then returns (20, true); put(2, 7) returns (0, false) and
get(2) then returns (7, true). -/
theorem claim_C2_witness :
    ((Get intLess 1 mapTen).1 = (10, true) ∧
      (Put intLess 1 20 1 mapTen).1 = (10, true) ∧
      (Get intLess 1 (Put intLess 1 20 1 mapTen).2).1 = (20, true)) ∧
    ((find intLess 2 mapTen).found = false ∧
      (Put intLess 2 7 1 mapTen).1 = ((default : Int), false) ∧
      (Get intLess 2 (Put intLess 2 7 1 mapTen).2).1 = (7, true)) := by
  have h1 := (claim_C2_put_get_roundtrip irrefl_intLess mapTen
    (by simp [allLive, mapTen]) 1 10 20 7 1).1 (by decide)
  have h2 := (claim_C2_put_get_roundtrip irrefl_intLess mapTen
    (by simp [allLive, mapTen]) 2 10 20 7 1).2 (by decide)
  exact ⟨⟨by decide, h1.1, h1.2⟩, ⟨by decide, h2.1, h2.2⟩⟩

/-! ### Claim C3 -/

/-- C3: on a fresh map, after put(42, 1) the first delete(42) returns
(1, true), a second delete(42) returns (0, false), and afterwards
len() = 0 and contains(42) = false; in general, delete on a key that
find reports absent returns the zero value with false and leaves len()
unchanged. -/
theorem claim_C3_delete_idempotent (less : K → K → Bool) :
    ((Delete intLess 42 mapC3).1 = (1, true) ∧
      (Delete intLess 42 (Delete intLess 42 mapC3).2).1 = (0, false) ∧
      Len (Delete intLess 42 (Delete intLess 42 mapC3).2).2 = 0 ∧
      (Contains intLess 42 (Delete intLess 42 (Delete intLess 42 mapC3).2).2).1
        = false) ∧
    (∀ (s : SkipListMap K V) (k : K), (find less k s).found = false →
      (Delete less k s).1 = ((default : V), false) ∧
      Len (Delete less k s).2 = Len s) := by
  constructor
  · refine ⟨by decide, by decide, by decide, by decide⟩
  · intro s k h
    rw [delete_not_found_eq h]
    exact ⟨rfl, find_state_length k s⟩

/-- Witness for C3: deleting the absent key 7 from a fresh map returns
(0, false) and leaves the length at 0. -/
theorem claim_C3_witness :
    (find intLess 7 (New : SkipListMap Int Int)).found = false ∧
      (Delete intLess 7 (New : SkipListMap Int Int)).1 = ((default : Int), false) ∧
      Len (Delete intLess 7 (New : SkipListMap Int Int)).2 =
        Len (New : SkipListMap Int Int) :=
  ⟨by decide,
    (claim_C3_delete_idempotent intLess).2 New 7 (by decide)⟩

/-! ### Claim C10 -/

/-- C10: when put(k, v2) replaces the live value of a present key, only
that node's value slot changes: the returned pair is the old value with
true, the length and both insert-CAS counters are unchanged, every
node's key, height and marker flag are unchanged, and the Get answer of
every other key is unchanged. -/
theorem claim_C10_put_replace_frame (less : K → K → Bool) (s : SkipListMap K V)
    (hl : allLive s.entries) (k : K) (v1 v2 : V) (draw : Nat)
    (hg : (Get less k s).1 = (v1, true)) :
    (Put less k v2 draw s).1 = (v1, true) ∧
    (Put less k v2 draw s).2.length = s.length ∧
    (Put less k v2 draw s).2.insertCASRetries = s.insertCASRetries ∧
    (Put less k v2 draw s).2.insertCASSuccesses = s.insertCASSuccesses ∧
    (Put less k v2 draw s).2.entries.map (fun n => (n.key, n.height, n.marker))
      = s.entries.map (fun n => (n.key, n.height, n.marker)) ∧
    ∀ k2 : K, k2 ≠ k → (Get less k2 (Put less k v2 draw s).2).1 =
      (Get less k2 s).1 := by
  obtain ⟨e, len, r, su⟩ := s
  rcases hdw : e.dropWhile (fun n => less n.key k) with _ | ⟨c, rest⟩
  · rw [get_not_found_eq hl (by simp [hdw, foundOf])] at hg
    simp at hg
  · have hsub : (c :: rest).Sublist e := by
      rw [← hdw]; exact List.dropWhile_sublist _
    by_cases hck : c.key = k
    · obtain ⟨hcm, hcs⟩ := hl c (hsub.subset (by simp))
      rcases hval : c.val with _ | vc
      · rw [hval] at hcs; simp at hcs
      · rw [get_found_eq hl hdw hck hval] at hg
        simp only [Prod.mk.injEq] at hg
        have hv1 : vc = v1 := hg.1
        have he : e.takeWhile (fun n => less n.key k) ++ c :: rest = e := by
          conv_rhs => rw [← List.takeWhile_append_dropWhile
            (p := fun n => less n.key k) (l := e)]
          rw [hdw]
        have hPut := put_replace_eq v2 (randomLevel draw)
          hl hdw hck hval
        refine ⟨by rw [Put, hPut]; simp [hv1], by rw [Put, hPut],
          by rw [Put, hPut], by rw [Put, hPut], ?_, ?_⟩
        · rw [Put, hPut]
          conv_rhs => rw [← he]
          simp
        · intro k2 hk2
          rw [Put, hPut]
          rw [get_fst_eq, get_fst_eq]
          conv_rhs => rw [← he]
          refine lookupRes_frame k2 ?_ ?_ ?_ ?_
            (e.takeWhile (fun n => less n.key k)) rest
          · rfl
          · rfl
          · simp [hval]
          · rw [hck]; exact fun hEq => hk2 hEq.symm
    · rw [get_not_found_eq hl (by simp [hdw, foundOf, hck])] at hg
      simp at hg

/-! ### The reachable-state invariant (claims C6, C7) -/

theorem sortedBy_of_keys_eq {l1 l2 : List (Node K V)}
    (h : l1.map (fun n => n.key) = l2.map (fun n => n.key))
    (hs : sortedBy less l2) : sortedBy less l1 := by
  have h2 : (l2.map (fun n => n.key)).Pairwise (fun a b => less a b = true) :=
    List.pairwise_map.mpr hs
  rw [← h] at h2
  exact List.pairwise_map.mp h2

/-- Linking a fresh node for an absent key between the walk's
predecessors and successors preserves sortedness. -/
theorem sorted_insert (hso : StrictOrder less) {l : List (Node K V)}
    (hsort : sortedBy less l) (hl : allLive l) {k : K}
    (hnf : foundOf k (l.dropWhile (fun n => less n.key k)) = false)
    (v : V) (h : Nat) :
    sortedBy less (l.takeWhile (fun n => less n.key k) ++
      ((⟨k, some v, h, false⟩ : Node K V) ::
        l.dropWhile (fun n => less n.key k))) := by
  have hsplit : sortedBy less (l.takeWhile (fun n => less n.key k) ++
      l.dropWhile (fun n => less n.key k)) := by
    rw [List.takeWhile_append_dropWhile]; exact hsort
  obtain ⟨Ptw, Pdw, cross⟩ := List.pairwise_append.1 hsplit
  have hknew : ∀ b ∈ l.dropWhile (fun n => less n.key k),
      less k b.key = true := by
    intro b hb
    rcases hdw : l.dropWhile (fun n => less n.key k) with _ | ⟨d, ds⟩
    · rw [hdw] at hb; simp at hb
    · have hpd : less d.key k = false := by
        have hhd := List.head?_dropWhile_not (fun n => less n.key k) l
        rw [hdw] at hhd
        simpa using hhd
      have hdne : d.key ≠ k := by
        intro hEq
        rw [hdw] at hnf
        have hdl := hl d ((List.dropWhile_sublist _).subset (by rw [hdw]; simp))
        simp [foundOf, hEq, hdl.2] at hnf
      have hkd : less k d.key = true := by
        rcases hso.2.2 k d.key (fun hEq => hdne hEq.symm) with hx | hx
        · exact hx
        · rw [hx] at hpd; exact Bool.noConfusion hpd
      rw [hdw] at hb Pdw
      rcases List.mem_cons.1 hb with hb | hb
      · rw [hb]; exact hkd
      · exact hso.2.1 _ _ _ hkd ((List.pairwise_cons.1 Pdw).1 b hb)
  refine List.pairwise_append.2 ⟨Ptw, ?_, ?_⟩
  · refine List.pairwise_cons.2 ⟨?_, Pdw⟩
    intro b hb
    exact hknew b hb
  · intro a ha b hb
    rcases List.mem_cons.1 hb with hb | hb
    · rw [hb]
      simpa using List.mem_takeWhile_imp ha
    · exact cross a ha b hb

/-- Inv is preserved by Put. -/
theorem put_inv (hso : StrictOrder less) {s : SkipListMap K V}
    (hInv : Inv less s) (k : K) (v : V) (draw : Nat) :
    Inv less (Put less k v draw s).2 := by
  obtain ⟨hsort, hl, hh, hlen, hle⟩ := hInv
  by_cases hfo : foundOf k (s.entries.dropWhile (fun n => less n.key k)) = true
  · rcases hdw : s.entries.dropWhile (fun n => less n.key k) with _ | ⟨c, rest⟩
    · rw [hdw] at hfo; simp [foundOf] at hfo
    · rw [hdw] at hfo
      simp only [foundOf, Bool.and_eq_true, decide_eq_true_eq] at hfo
      obtain ⟨hck, hcs⟩ := hfo
      rcases hval : c.val with _ | vc
      · rw [hval] at hcs; simp at hcs
      · have he : s.entries.takeWhile (fun n => less n.key k) ++ c :: rest
            = s.entries := by
          conv_rhs => rw [← List.takeWhile_append_dropWhile
            (p := fun n => less n.key k) (l := s.entries)]
          rw [hdw]
        have hsub : (c :: rest).Sublist s.entries := by
          rw [← hdw]; exact List.dropWhile_sublist _
        rw [Put, put_replace_eq v (randomLevel draw) hl hdw hck hval]
        refine ⟨?_, ?_, ?_, ?_, ?_⟩
        · refine sortedBy_of_keys_eq ?_ hsort
          conv_rhs => rw [← he]
          simp
        · intro n hn
          rcases List.mem_append.1 hn with hn | hn
          · exact hl n ((List.takeWhile_sublist _).subset hn)
          · rcases List.mem_cons.1 hn with hn | hn
            · subst hn
              exact ⟨(hl c (hsub.subset (by simp))).1, by simp⟩
            · exact hl n (hsub.subset (List.mem_cons_of_mem c hn))
        · intro n hn
          rcases List.mem_append.1 hn with hn | hn
          · exact hh n ((List.takeWhile_sublist _).subset hn)
          · rcases List.mem_cons.1 hn with hn | hn
            · subst hn
              exact hh c (hsub.subset (by simp))
            · exact hh n (hsub.subset (List.mem_cons_of_mem c hn))
        · have : (s.entries.takeWhile (fun n => less n.key k) ++
              ({ c with val := some v } :: rest)).length = s.entries.length := by
            conv_rhs => rw [← he]
            simp
          simp only [this]
          exact hlen
        · exact hle
  · rw [Bool.not_eq_true] at hfo
    rw [Put, put_fresh_eq v (randomLevel draw) hl hfo]
    have hlensplit : (s.entries.takeWhile (fun n => less n.key k)).length +
        (s.entries.dropWhile (fun n => less n.key k)).length
          = s.entries.length := by
      rw [← List.length_append, List.takeWhile_append_dropWhile]
    refine ⟨sorted_insert hso hsort hl hfo v (randomLevel draw), ?_, ?_, ?_, ?_⟩
    · intro n hn
      rcases List.mem_append.1 hn with hn | hn
      · exact hl n ((List.takeWhile_sublist _).subset hn)
      · rcases List.mem_cons.1 hn with hn | hn
        · subst hn; exact ⟨rfl, rfl⟩
        · exact hl n ((List.dropWhile_sublist _).subset hn)
    · intro n hn
      rcases List.mem_append.1 hn with hn | hn
      · exact hh n ((List.takeWhile_sublist _).subset hn)
      · rcases List.mem_cons.1 hn with hn | hn
        · subst hn; exact randomLevel_bounds draw
        · exact hh n ((List.dropWhile_sublist _).subset hn)
    · simp only [List.length_append, List.length_cons]
      rw [hlen]
      push_cast
      omega
    · show s.length + 1 ≤ s.insertCASSuccesses + 1
      omega

/-- Inv is preserved by Delete. -/
theorem delete_inv (hso : StrictOrder less) {s : SkipListMap K V}
    (hInv : Inv less s) (k : K) : Inv less (Delete less k s).2 := by
  obtain ⟨hsort, hl, hh, hlen, hle⟩ := hInv
  rcases hdw : s.entries.dropWhile (fun n => less n.key k) with _ | ⟨c, rest⟩
  · have hf : (find less k s).found = false := by
      simp [find, findSplit_allLive k s.entries hl, hdw, foundOf]
    rw [delete_not_found_eq hf, find_state_of_allLive hl]
    exact ⟨hsort, hl, hh, hlen, hle⟩
  · have hsub : (c :: rest).Sublist s.entries := by
      rw [← hdw]; exact List.dropWhile_sublist _
    by_cases hck : c.key = k
    · obtain ⟨hcm, hcs⟩ := hl c (hsub.subset (by simp))
      rcases hval : c.val with _ | vc
      · rw [hval] at hcs; simp at hcs
      · have he : s.entries.takeWhile (fun n => less n.key k) ++ c :: rest
            = s.entries := by
          conv_rhs => rw [← List.takeWhile_append_dropWhile
            (p := fun n => less n.key k) (l := s.entries)]
          rw [hdw]
        have hsub2 : (s.entries.takeWhile (fun n => less n.key k) ++
            rest).Sublist s.entries := by
          conv_rhs => rw [← he]
          exact (List.sublist_cons_self c rest).append_left _
        rw [delete_found_eq hl hdw hck hval]
        refine ⟨sortedBy_sublist hsub2 hsort, allLive_sublist hsub2 hl,
          fun n hn => hh n (hsub2.subset hn), ?_, ?_⟩
        · have h1 : (s.entries.takeWhile (fun n => less n.key k) ++
              rest).length + 1 = s.entries.length := by
            conv_rhs => rw [← he]
            simp only [List.length_append, List.length_cons]
            omega
          show s.length - 1 = ((s.entries.takeWhile (fun n => less n.key k) ++
            rest).length : Int)
          rw [hlen]
          omega
        · show s.length - 1 ≤ s.insertCASSuccesses
          omega
    · have hf : (find less k s).found = false := by
        simp [find, findSplit_allLive k s.entries hl, hdw, foundOf, hck]
      rw [delete_not_found_eq hf, find_state_of_allLive hl]
      exact ⟨hsort, hl, hh, hlen, hle⟩

/-- Get returns the state produced by its find. -/
theorem get_snd (k : K) (s : SkipListMap K V) :
    (Get less k s).2 = (find less k s).state := by
  by_cases hf : (find less k s).found
  · rcases hsuf : (find less k s).suffix with _ | ⟨c, rest⟩
    · simp [Get, hf, hsuf]
    · rcases hcv : c.val with _ | v <;> simp [Get, hf, hsuf, hcv]
  · simp [Get, hf]

/-- Inv holds in every reachable state. -/
theorem reach_inv (hso : StrictOrder less) {s : SkipListMap K V}
    (hre : Reach less s) : Inv less s := by
  induction hre with
  | new =>
    refine ⟨?_, ?_, ?_, by simp [New], by simp [New]⟩ <;>
      simp [New, sortedBy, allLive, heightsOK]
  | put k v draw s2 h ih => exact put_inv hso ih k v draw
  | del k s2 h ih => exact delete_inv hso ih k
  | get k s2 h ih =>
    rw [get_snd, find_state_of_allLive ih.2.1]
    exact ih
  | contains k s2 h ih =>
    have : (Contains less k s2).2 = (find less k s2).state := rfl
    rw [this, find_state_of_allLive ih.2.1]
    exact ih

/-! ### Claim C6 -/

/-- C6: in every reachable state, at every level i the level-i chain —
the nodes whose tower height exceeds i, in level-0 order — is strictly
increasing under the user comparator: every node's level-i forward node
has a strictly greater key (the tail, which terminates every chain,
counts as greater than all keys).  All nodes of a reachable state are
live, so this covers every non-marker, non-tombstone node. -/
theorem claim_C6_sortedness_invariant (hso : StrictOrder less)
    (s : SkipListMap K V) (hre : Reach less s) :
    ∀ i : Nat, List.Chain' (fun a b => less a.key b.key = true) (chainAt i s) := by
  intro i
  have hsort : sortedBy less s.entries := (reach_inv hso hre).1
  exact List.Pairwise.chain' (hsort.filter _)

/-- Witness for C6: the chains of a freshly created map are sorted. -/
theorem claim_C6_witness :
    StrictOrder intLess ∧
      List.Chain' (fun a b : Node Int Int => intLess a.key b.key = true)
        (chainAt 0 (New : SkipListMap Int Int)) :=
  ⟨strictOrder_intLess,
    claim_C6_sortedness_invariant strictOrder_intLess New Reach.new 0⟩

/-! ### Claim C7 -/

theorem put_effect_counters (less : K → K → Bool) (k : K) (v : V) (draw : Nat)
    (s : SkipListMap K V) :
    ((Put less k v draw s).2.length = s.length ∧
      (Put less k v draw s).2.insertCASSuccesses = s.insertCASSuccesses) ∨
    ((Put less k v draw s).2.length = s.length + 1 ∧
      (Put less k v draw s).2.insertCASSuccesses = s.insertCASSuccesses + 1) := by
  by_cases hf : (find less k s).found
  · rcases hsuf : (find less k s).suffix with _ | ⟨c, rest⟩
    · left; simp [Put, PutH, hf, hsuf]
      exact ⟨find_state_length k s, find_state_successes k s⟩
    · left; simp [Put, PutH, hf, hsuf]
      exact ⟨find_state_length k s, find_state_successes k s⟩
  · right; simp [Put, PutH, hf]
    exact ⟨find_state_length k s, find_state_successes k s⟩

theorem delete_effect_counters (less : K → K → Bool) (k : K) (s : SkipListMap K V) :
    ((Delete less k s).2.length = s.length ∧
      (Delete less k s).2.insertCASSuccesses = s.insertCASSuccesses) ∨
    ((Delete less k s).2.length = s.length - 1 ∧
      (Delete less k s).2.insertCASSuccesses = s.insertCASSuccesses) := by
  by_cases hf : (find less k s).found
  · rcases hsuf : (find less k s).suffix with _ | ⟨c, rest⟩
    · left; simp [Delete, hf, hsuf]
      exact ⟨find_state_length k s, find_state_successes k s⟩
    · rcases hcv : c.val with _ | v
      · left; simp [Delete, hf, hsuf, hcv]
        exact ⟨find_state_length k s, find_state_successes k s⟩
      · right; simp [Delete, hf, hsuf, hcv]
        constructor
        · rfl
        · rfl
  · left; simp [Delete, hf]
    exact ⟨find_state_length k s, find_state_successes k s⟩

/-- C7: in every reachable state the successful-insert CAS counter is at
least the live length, and the successes counter never decreases across
any operation, so the inequality holds monotonically throughout every
history. -/
theorem claim_C7_cas_successes_ge_len (less : K → K → Bool) :
    (∀ s : SkipListMap K V, Reach less s → Len s ≤ (InsertCASStats s).2) ∧
    (∀ (s : SkipListMap K V) (k : K) (v : V) (draw : Nat),
      (InsertCASStats s).2 ≤ (InsertCASStats (Put less k v draw s).2).2) ∧
    (∀ (s : SkipListMap K V) (k : K),
      (InsertCASStats s).2 ≤ (InsertCASStats (Delete less k s).2).2) ∧
    (∀ (s : SkipListMap K V) (k : K),
      (InsertCASStats s).2 ≤ (InsertCASStats (Get less k s).2).2) ∧
    (∀ (s : SkipListMap K V) (k : K),
      (InsertCASStats s).2 ≤ (InsertCASStats (Contains less k s).2).2) := by
  refine ⟨?_, ?_, ?_, ?_, ?_⟩
  · intro s hre
    induction hre with
    | new => simp [Len, InsertCASStats, New]
    | put k v draw s2 h ih =>
      rcases put_effect_counters less k v draw s2 with ⟨h1, h2⟩ | ⟨h1, h2⟩ <;>
        simp only [Len, InsertCASStats] at ih ⊢ <;> rw [h1, h2] <;> omega
    | del k s2 h ih =>
      rcases delete_effect_counters less k s2 with ⟨h1, h2⟩ | ⟨h1, h2⟩ <;>
        simp only [Len, InsertCASStats] at ih ⊢ <;> rw [h1, h2] <;> omega
    | get k s2 h ih =>
      simp only [Len, InsertCASStats] at ih ⊢
      rw [get_snd, find_state_length, find_state_successes]
      exact ih
    | contains k s2 h ih =>
      simp only [Len, InsertCASStats] at ih ⊢
      have h2 : (Contains less k s2).2 = (find less k s2).state := rfl
      rw [h2, find_state_length, find_state_successes]
      exact ih
  · intro s k v draw
    rcases put_effect_counters less k v draw s with ⟨_, h2⟩ | ⟨_, h2⟩ <;>
      simp only [InsertCASStats] <;> rw [h2] <;> omega
  · intro s k
    rcases delete_effect_counters less k s with ⟨_, h2⟩ | ⟨_, h2⟩ <;>
      simp only [InsertCASStats] <;> rw [h2]
  · intro s k
    simp only [InsertCASStats]
    rw [get_snd, find_state_successes]
  · intro s k
    simp only [InsertCASStats]
    have h2 : (Contains less k s).2 = (find less k s).state := rfl
    rw [h2, find_state_successes]

/-- Witness for C7: on a freshly created map the live length 0 is at
most the success counter 0. -/
theorem claim_C7_witness :
    Reach intLess (New : SkipListMap Int Int) ∧
      Len (New : SkipListMap Int Int) ≤
        (InsertCASStats (New : SkipListMap Int Int)).2 :=
  ⟨Reach.new, (claim_C7_cas_successes_ge_len intLess).1 New Reach.new⟩

/-! ### Iterator lemmas (claims C4, C5) -/

theorem scanLive_nextLive (l : List (Node K V)) :
    scanLive l = match nextLive l with
      | none => []
      | some (n, rest) => (n.key, n.val.getD default) :: scanLive rest := by
  induction l with
  | nil => rfl
  | cons n rest ih =>
    by_cases hm : n.marker = true
    · simpa [scanLive, nextLive, hm] using ih
    · rw [Bool.not_eq_true] at hm
      by_cases hv : n.val.isNone = true
      · simpa [scanLive, nextLive, hm, hv] using ih
      · rw [Bool.not_eq_true] at hv
        simp [scanLive, nextLive, hm, hv]

theorem mem_scanLive {x : K × V} :
    ∀ {l : List (Node K V)}, x ∈ scanLive l →
      ∃ n ∈ l, x = (n.key, n.val.getD default) := by
  intro l
  induction l with
  | nil => intro h; simp [scanLive] at h
  | cons n rest ih =>
    intro h
    by_cases hm : n.marker = true
    · rw [scanLive, if_pos hm] at h
      obtain ⟨m, hm2, hx⟩ := ih h
      exact ⟨m, by simp [hm2], hx⟩
    · rw [Bool.not_eq_true] at hm
      by_cases hv : n.val.isNone = true
      · rw [scanLive, if_neg (by simp [hm]), if_pos hv] at h
        obtain ⟨m, hm2, hx⟩ := ih h
        exact ⟨m, by simp [hm2], hx⟩
      · rw [scanLive, if_neg (by simp [hm]), if_neg hv] at h
        rcases List.mem_cons.1 h with h | h
        · exact ⟨n, by simp, h⟩
        · obtain ⟨m, hm2, hx⟩ := ih h
          exact ⟨m, by simp [hm2], hx⟩

theorem scanLive_pairwise {l : List (Node K V)} (hsort : sortedBy less l) :
    (scanLive l).Pairwise (fun a b => less a.1 b.1 = true) := by
  induction l with
  | nil => simp [scanLive]
  | cons n rest ih =>
    obtain ⟨hrel, hrest⟩ := List.pairwise_cons.1 hsort
    by_cases hm : n.marker = true
    · rw [scanLive, if_pos hm]; exact ih hrest
    · rw [Bool.not_eq_true] at hm
      by_cases hv : n.val.isNone = true
      · rw [scanLive, if_neg (by simp [hm]), if_pos hv]; exact ih hrest
      · rw [scanLive, if_neg (by simp [hm]), if_neg hv]
        refine List.pairwise_cons.2 ⟨?_, ih hrest⟩
        intro b hb
        obtain ⟨m, hm2, hx⟩ := mem_scanLive hb
        rw [hx]
        exact hrel m hm2

/-- Driving a positioned iterator with Next yields the live pairs of the
chain after the current node, truncated by the fuel. -/
theorem collect_valid_eq (s : SkipListMap K V) :
    ∀ (fuel : Nat) (l : List (Node K V)) (k0 : K) (v0 : V),
      collect fuel (some ⟨some s, l, k0, v0, true⟩) = (scanLive l).take fuel := by
  intro fuel
  induction fuel with
  | zero => intro l k0 v0; rfl
  | succ fuel ih =>
    intro l k0 v0
    rcases hnl : nextLive l with _ | ⟨n, rest⟩
    · rw [scanLive_nextLive, hnl]
      simp [collect, IterNext, hnl]
    · rw [scanLive_nextLive, hnl]
      simp only [collect, IterNext, hnl, IterKey, IterValue, if_pos]
      simp [ih rest]

/-- Driving a non-positioned (pre-start or exhausted) iterator restarts
from the head: the yield is the live pairs of the whole chain. -/
theorem collect_restart_eq (s : SkipListMap K V) :
    ∀ (fuel : Nat) (l : List (Node K V)) (k0 : K) (v0 : V),
      collect fuel (some ⟨some s, l, k0, v0, false⟩) =
        (scanLive s.entries).take fuel := by
  intro fuel
  cases fuel with
  | zero => intro l k0 v0; rfl
  | succ fuel =>
    intro l k0 v0
    rcases hnl : nextLive s.entries with _ | ⟨n, rest⟩
    · rw [scanLive_nextLive, hnl]
      simp [collect, IterNext, hnl]
    · rw [scanLive_nextLive, hnl]
      simp only [collect, IterNext]
      rw [if_neg (by simp), hnl]
      simp [IterKey, IterValue, collect_valid_eq s fuel rest]

/-! ### Claim C4 -/

/-- C4: inserting keys {5, 1, 3} with values {50, 10, 30} into a fresh
map and fully iterating yields exactly [(1,10), (3,30), (5,50)]; and on
every sorted chain the key sequence yielded by a single iterator — via
repeated next() from a fresh iterator, or seek_ge followed by repeated
next() — is strictly increasing under the user comparator, each key
reported at most once. -/
theorem claim_C4_iteration_order (less : K → K → Bool) :
    (collect 4 (some (NewIterator mapC4)) = [(1, 10), (3, 30), (5, 50)]) ∧
    (∀ s : SkipListMap K V, sortedBy less s.entries → ∀ fuel : Nat,
      List.Chain' (fun a b : K × V => less a.1 b.1 = true)
        (collect fuel (some (NewIterator s)))) ∧
    (∀ s : SkipListMap K V, sortedBy less s.entries → ∀ (k : K) (fuel : Nat),
      List.Chain' (fun a b : K × V => less a.1 b.1 = true)
        (seekCollect less k fuel s)) := by
  refine ⟨by decide, ?_, ?_⟩
  · intro s hsort fuel
    have h1 : collect fuel (some (NewIterator s)) =
        (scanLive s.entries).take fuel := by
      rw [NewIterator]
      exact collect_restart_eq s fuel [] default default
    rw [h1]
    exact List.Pairwise.chain'
      ((scanLive_pairwise hsort).sublist (List.take_sublist fuel _))
  · intro s hsort k fuel
    have hsufsort : sortedBy less (find less k s).suffix :=
      sortedBy_sublist (findSplit_suffix_sublist k s.entries) hsort
    have hscan := scanLive_pairwise hsufsort
    rcases hnl : nextLive (find less k s).suffix with _ | ⟨n, rest⟩
    · simp [seekCollect, IterSeekGE, NewIterator, hnl]
    · rw [scanLive_nextLive, hnl] at hscan
      obtain ⟨hrel, hrest⟩ := List.pairwise_cons.1 hscan
      have hseek : seekCollect less k fuel s =
          (n.key, n.val.getD default) :: (scanLive rest).take fuel := by
        simp only [seekCollect, IterSeekGE, NewIterator, hnl, invalidate]
        simp [IterKey, IterValue, collect_valid_eq s fuel rest]
      rw [hseek]
      refine List.Pairwise.chain' (List.pairwise_cons.2 ⟨?_, ?_⟩)
      · intro b hb
        exact hrel b ((List.take_sublist fuel _).subset hb)
      · exact hrest.sublist (List.take_sublist fuel _)

/-- Witness for C4: iterating the one-element map {1 ↦ 10} yields a
strictly increasing key sequence. -/
theorem claim_C4_witness :
    sortedBy intLess mapTen.entries ∧
      List.Chain' (fun a b : Int × Int => intLess a.1 b.1 = true)
        (collect 2 (some (NewIterator mapTen))) :=
  ⟨by simp [sortedBy, mapTen],
    (claim_C4_iteration_order intLess).2.1 mapTen
      (by simp [sortedBy, mapTen]) 2⟩

/-! ### Claim C5 -/

/-- C5 as stated is false: an iterator that is not positioned but has a
non-nil map does not always report false from next().  On the one-element
map {1 ↦ 10}, advancing a fresh iterator twice leaves it exhausted
(valid = false) over a non-empty map, yet the third next() returns true:
Next restarts from the head when the iterator is not valid. -/
theorem claim_C5_counterexample :
    IterValid (IterNext (IterNext (some (NewIterator mapTen))).2).2 = false ∧
      (IterNext (IterNext (IterNext (some (NewIterator mapTen))).2).2).1
        = true := by decide

/-- C5 (amended): key() and value() on a nil or non-positioned iterator
return the zero values of K and V; next() and seek_ge(k) return false on
a nil iterator or on an iterator whose map reference is nil.  (On a
non-nil, non-positioned iterator with a map, next() restarts from the
head and seek_ge() re-seeks, so they may return true — see the
counterexample.) -/
theorem claim_C5_iterator_accessor_safety (less : K → K → Bool) :
    (IterKey (K := K) (V := V) none = default) ∧
    (IterValue (K := K) (V := V) none = default) ∧
    (∀ it : Iterator K V, it.valid = false →
      IterKey (some it) = default ∧ IterValue (some it) = default) ∧
    (IterNext (K := K) (V := V) none = (false, none)) ∧
    (∀ k : K, (IterSeekGE less k (none : Option (Iterator K V))).1 = false) ∧
    (∀ it : Iterator K V, it.m = none →
      (IterNext (some it)).1 = false ∧
        ∀ k : K, (IterSeekGE less k (some it)).1 = false) := by
  refine ⟨rfl, rfl, ?_, rfl, fun k => rfl, ?_⟩
  · intro it hv
    simp [IterKey, IterValue, hv]
  · intro it hm
    constructor
    · simp [IterNext, hm]
    · intro k
      simp [IterSeekGE, hm]

/-- Witness for C5 (amended): the fresh (pre-start, hence non-positioned)
iterator over {1 ↦ 10} reports the zero key and value. -/
theorem claim_C5_witness :
    (NewIterator mapTen).valid = false ∧
      IterKey (some (NewIterator mapTen)) = (default : Int) ∧
      IterValue (some (NewIterator mapTen)) = (default : Int) := by
  have h := (claim_C5_iterator_accessor_safety intLess).2.2.1
    (NewIterator mapTen) rfl
  exact ⟨rfl, h.1, h.2⟩

/-- Witness for C10: replacing the value of key 1 in the map {1 ↦ 10}
changes neither the counters, the keys, nor the Get answer at key 2. -/
theorem claim_C10_witness :
    (Get intLess 1 mapTen).1 = (10, true) ∧
      (Put intLess 1 20 1 mapTen).1 = (10, true) ∧
      (Put intLess 1 20 1 mapTen).2.length = mapTen.length ∧
      (Get intLess 2 (Put intLess 1 20 1 mapTen).2).1 = (Get intLess 2 mapTen).1 := by
  have h := claim_C10_put_replace_frame intLess mapTen
    (by simp [allLive, mapTen]) 1 10 20 1 (by decide)
  exact ⟨by decide, h.1, h.2.1, h.2.2.2.2.2 2 (by decide)⟩

end Skiplist
